import Mathlib

/-!
Verification of the Zodel web SSE client (src/web/src/lib/sse.ts), the
flows page event handling (FlowsPage.run), and a model of the Zflow
executor described by the design document.  JavaScript strings are
embedded as lists of characters; every JS string operation used by the
code under study is re-defined below on `List Char`.
-/

namespace Zodel

/-- Whitespace characters stripped by the JS `trimEnd`/`trim` methods
(the ASCII ones; the code under study only ever meets these). -/
def isWsChar (c : Char) : Bool :=
  c = ' ' || c = '\t' || c = '\n' || c = '\r' || c = '\x0b' || c = '\x0c'

/-- JS `String.prototype.trimEnd` on a list of characters. -/
def trimEnd (l : List Char) : List Char :=
  (l.reverse.dropWhile isWsChar).reverse

/-- JS `String.prototype.trim` on a list of characters. -/
def trimBoth (l : List Char) : List Char :=
  (trimEnd l).dropWhile isWsChar

/-- JS `String.prototype.startsWith pre` on lists of characters. -/
def strStarts : List Char → List Char → Bool
  | [], _ => true
  | _ :: _, [] => false
  | p :: ps, c :: cs => p = c && strStarts ps cs

/-- Concatenation of a list of strings (used for accumulated buffers). -/
def joinAll : List (List Char) → List Char
  | [] => []
  | l :: ls => l ++ joinAll ls

/-- The split performed by `parseSseLines` in sse.ts:
`buffer.split("\n\n")` followed by `parts.pop()`.  Returns the list of
complete (blank-line terminated) event blocks and the trailing rest.
Matches are found leftmost and non-overlapping, as JS `split` does. -/
def splitB : List Char → List (List Char) × List Char
  | [] => ([], [])
  | [c] => ([], [c])
  | a :: b :: rest =>
    if a = '\n' ∧ b = '\n' then
      let p := splitB rest
      ([] :: p.1, p.2)
    else
      let p := splitB (b :: rest)
      match p.1 with
      | [] => ([], a :: p.2)
      | h :: t => ((a :: h) :: t, p.2)

/-- The function `parseSseLines` from sse.ts: split the buffer on blank lines, the
last fragment is the unfinished rest, the others are complete events. -/
def parseSseLines (buffer : List Char) : List (List Char) × List Char :=
  splitB buffer

/-- JS `block.split("\n")` (single-character separator, keeps every
fragment including the last). -/
def splitLines : List Char → List (List Char)
  | [] => [[]]
  | c :: rest =>
    if c = '\n' then [] :: splitLines rest
    else
      match splitLines rest with
      | [] => [[c]]
      | h :: t => (c :: h) :: t

/-- The `SseMessage` union type of sse.ts, one constructor per variant. -/
inductive SseMessage where
  | start : SseMessage
  | delta (text : List Char) : SseMessage
  | done : SseMessage
  | error (message : List Char) : SseMessage
  | modelInfo (model : List Char) : SseMessage
deriving DecidableEq

/-- The discriminating `type` field of each `SseMessage` variant. -/
def typeField : SseMessage → List Char
  | SseMessage.start => ['s', 't', 'a', 'r', 't']
  | SseMessage.delta _ => ['d', 'e', 'l', 't', 'a']
  | SseMessage.done => ['d', 'o', 'n', 'e']
  | SseMessage.error _ => ['e', 'r', 'r', 'o', 'r']
  | SseMessage.modelInfo _ => ['m', 'o', 'd', 'e', 'l', '_', 'i', 'n', 'f', 'o']

def deltaTag : List Char := ['d', 'e', 'l', 't', 'a']
def errorTag : List Char := ['e', 'r', 'r', 'o', 'r']
def doneTag : List Char := ['d', 'o', 'n', 'e']
def startTag : List Char := ['s', 't', 'a', 'r', 't']
def modelInfoTag : List Char := ['m', 'o', 'd', 'e', 'l', '_', 'i', 'n', 'f', 'o']

/-- The literal prefix checked by `line.startsWith("event:")`. -/
def eventPre : List Char := ['e', 'v', 'e', 'n', 't', ':']

/-- The literal prefix checked by `line.startsWith("data:")`. -/
def dataPre : List Char := ['d', 'a', 't', 'a', ':']

/-- One iteration of the `for (const raw of lines)` loop of
`parseEventBlock`: the accumulator is the pair (event, data). -/
def sseFold (acc : List Char × List Char) (raw : List Char) : List Char × List Char :=
  let line := trimEnd raw
  if line = [] then acc
  else if strStarts eventPre line then (trimBoth (line.drop 6), acc.2)
  else if strStarts dataPre line then (acc.1, acc.2 ++ trimBoth (line.drop 5))
  else acc

/-- The function `parseEventBlock` from sse.ts: fold the block's lines, starting from
event "message" and empty data; return `none` when data stayed empty. -/
def parseEventBlock (block : List Char) : Option (List Char × List Char) :=
  let r := (splitLines block).foldl sseFold (['m', 'e', 's', 's', 'a', 'g', 'e'], [])
  if r.2 = [] then none else some r

/-- Is a raw line one the data branch of the loop consumes?  (A line
starting with "data:" is nonempty and cannot start with "event:".) -/
def isDataLine (raw : List Char) : Bool :=
  strStarts dataPre (trimEnd raw)

/-- The payload a data line contributes to the accumulated data. -/
def linePayload (raw : List Char) : List Char :=
  trimBoth ((trimEnd raw).drop 5)

/-- The data the loop of `parseEventBlock` accumulates over a block's
lines: the payloads of its data lines, concatenated in order. -/
def dataConcat (lines : List (List Char)) : List Char :=
  joinAll ((lines.filter isDataLine).map linePayload)

/-- Is a raw line anything other than an `event:` header line? -/
def nonEventLine (raw : List Char) : Bool :=
  ! strStarts eventPre (trimEnd raw)

/-- Two blocks differ only in their `event:` header lines: the
subsequences of their non-header lines coincide. -/
def sameButEvents (b1 b2 : List Char) : Prop :=
  (splitLines b1).filter nonEventLine = (splitLines b2).filter nonEventLine

/-- What `fetchSse` does with one complete block: parse it, and on
success run `JSON.parse` (modelled by the `decode` argument, `none`
standing for a parse exception that the `catch` swallows) on the data
payload only — the `event` component is dropped. -/
def processBlock (decode : List Char → Option SseMessage) (block : List Char) :
    Option SseMessage :=
  (parseEventBlock block).bind fun p => decode p.2

/-- The reader loop of `fetchSse`: append each chunk to the buffer,
split off complete blocks, carry the rest forward.  Returns the blocks
in the order they are handed to `parseEventBlock`; the final leftover
buffer is discarded exactly as the code does when the reader is done. -/
def runChunks (buf : List Char) : List (List Char) → List (List Char)
  | [] => []
  | c :: cs =>
    let p := splitB (buf ++ c)
    p.1 ++ runChunks p.2 cs

/-- The full message sequence `fetchSse` yields for a given sequence of
reader chunks. -/
def fetchSseMessages (decode : List Char → Option SseMessage)
    (chunks : List (List Char)) : List SseMessage :=
  (runChunks [] chunks).filterMap (processBlock decode)

/-- The literal `"\nError: "` prefix the flows page puts before an error
message, and the closing newline. -/
def errText (m : List Char) : List Char :=
  '\n' :: 'E' :: 'r' :: 'r' :: 'o' :: 'r' :: ':' :: ' ' :: (m ++ ['\n'])

/-- One step of `FlowsPage.run`: `delta` appends its text to the output,
`error` appends the formatted error message, other events are ignored. -/
def flowsStep (out : List Char) (m : SseMessage) : List Char :=
  match m with
  | SseMessage.delta t => out ++ t
  | SseMessage.error msg => out ++ errText msg
  | _ => out

/-- The output the flows page displays after consuming a message list,
starting from the empty output set by `setOutput("")`. -/
def flowsRun (ms : List SseMessage) : List Char :=
  ms.foldl flowsStep []

/-- Does a character list contain the blank-line separator (a newline
immediately followed by a newline) anywhere? -/
def hasSep : List Char → Bool
  | [] => false
  | [_] => false
  | a :: b :: rest => (a = '\n' && b = '\n') || hasSep (b :: rest)

/-- The reconstruction described for `parseSseLines`: join the events
with the blank-line separator, then append the separator and the rest;
when there are no events the buffer is the rest alone. -/
def seqJoin : List (List Char) → List Char
  | [] => []
  | [x] => x
  | x :: y :: rest => x ++ '\n' :: '\n' :: seqJoin (y :: rest)

def reconstructSse (events : List (List Char)) (rest : List Char) : List Char :=
  if events = [] then rest else seqJoin events ++ '\n' :: '\n' :: rest

/-!
The Zflow executor.  The interpreter itself (the Python backend behind
`/api/zflow/execute`) is not among the files under study; it is modelled
here from the design document, section 4.3 (Executor) and section 3
(data model), faithful to its words.
-/

/-- Modelled from the spec: the kinds a Zflow variable can have,
derived structurally from its name (spec section 3). -/
inductive VarKind where
  | model : VarKind
  | prompt : VarKind
  | input : VarKind
deriving DecidableEq

/-- Modelled from the spec: the parse-error taxonomy names the claims
use (spec section 7). -/
inductive ParseErr where
  | unknownVariableKind : ParseErr
deriving DecidableEq

/-- Modelled from the spec: variable-kind inference from the name alone
(spec section 3): exactly one uppercase letter is a Model, a name
starting with `p` is a Prompt, a name starting with `i` is an Input,
anything else is the UnknownVariableKind parse error. -/
def inferKind : List Char → Except ParseErr VarKind
  | [] => Except.error ParseErr.unknownVariableKind
  | [c] =>
    if c.isUpper then Except.ok VarKind.model
    else if c = 'p' then Except.ok VarKind.prompt
    else if c = 'i' then Except.ok VarKind.input
    else Except.error ParseErr.unknownVariableKind
  | c :: _ :: _ =>
    if c = 'p' then Except.ok VarKind.prompt
    else if c = 'i' then Except.ok VarKind.input
    else Except.error ParseErr.unknownVariableKind

/-- Modelled from the spec: one operator call — a model, an optional
system prompt and an optional extra side input (spec section 3). -/
structure Call where
  model : List Char
  prompt : Option (List Char)
  extra : Option (List Char)
deriving DecidableEq

/-- Modelled from the spec: a stage of the workflow chain is a single
operator call or a parallel group of calls (spec section 3). -/
inductive Stage where
  | op (c : Call) : Stage
  | par (cs : List Call) : Stage
deriving DecidableEq

/-- Modelled from the spec: the events of the outward stream a run
emits (spec section 6). -/
inductive OutEvent where
  | delta (text : List Char) : OutEvent
  | error (message : List Char) : OutEvent
  | done : OutEvent
deriving DecidableEq

/-- Modelled from the spec: the backend invocation contract — from a
model id, an optional system prompt, the user content and an optional
side context, a deterministic backend yields a chunk list or fails with
an error message (spec section 6, cancellation token omitted: the model
is synchronous). -/
def Backend : Type :=
  List Char → Option (List Char) → List Char → Option (List Char) →
    Except (List Char) (List (List Char))

/-- Modelled from the spec: invoking the backend once for a call on the
current buffer. -/
def callChunks (bk : Backend) (buf : List Char) (c : Call) :
    Except (List Char) (List (List Char)) :=
  bk c.model c.prompt buf c.extra

/-- Modelled from the spec: a branch's whole output — its chunks
accumulated into one buffer. -/
def branchOut (bk : Backend) (buf : List Char) (c : Call) :
    Except (List Char) (List Char) :=
  (callChunks bk buf c).map joinAll

/-- Modelled from the spec: the fixed newline delimiter between branch
outputs, joined in declared order. -/
def joinOutputs : List (List Char) → List Char
  | [] => []
  | [x] => x
  | x :: y :: rest => x ++ '\n' :: joinOutputs (y :: rest)

/-- Gather the results in declared order, failing on the first error. -/
def collectOk : List (Except (List Char) (List Char)) →
    Except (List Char) (List (List Char))
  | [] => Except.ok []
  | Except.error m :: _ => Except.error m
  | Except.ok a :: rs => (collectOk rs).map (fun l => a :: l)

/-- The error of the earliest-completing failed branch, `order` listing
branch indices by completion time. -/
def firstCompletedErr (results : List (Except (List Char) (List Char)))
    (order : List Nat) : Option (List Char) :=
  order.findSome? fun i =>
    match results.getD i (Except.ok []) with
    | Except.error m => some m
    | Except.ok _ => none

/-- Modelled from the spec: a Parallel stage — every branch runs on the
same input buffer; a failing branch fails the stage (fail-fast, the
siblings' outputs are dropped); on success the outputs are joined with
the newline delimiter in the branches' declared left-to-right order, no
matter the completion order. -/
def parExec (bk : Backend) (buf : List Char) (branches : List Call)
    (order : List Nat) : Except (List Char) (List Char) :=
  let results := branches.map (branchOut bk buf)
  match firstCompletedErr results order with
  | some m => Except.error m
  | none => (collectOk results).map joinOutputs

/-- The declared order used when no completion order is supplied. -/
def declOrder (cs : List Call) : List Nat := List.range cs.length

/-- Modelled from the spec: an intermediate (non-final) stage only
produces the next buffer, emitting nothing; a parallel stage consumes
the next completion order of the schedule. -/
def interResult (bk : Backend) (buf : List Char) :
    Stage → List (List Nat) → Except (List Char) (List Char × List (List Nat))
  | Stage.op c, ords => (branchOut bk buf c).map fun out => (out, ords)
  | Stage.par cs, ords =>
    (parExec bk buf cs (ords.headD (declOrder cs))).map fun out => (out, ords.tail)

/-- Modelled from the spec: run the leading stages of a workflow as
intermediate stages, returning the buffer entering the next stage. -/
def runHead (bk : Backend) :
    List Stage → List Char → List (List Nat) →
      Except (List Char) (List Char × List (List Nat))
  | [], buf, ords => Except.ok (buf, ords)
  | s :: rest, buf, ords =>
    match interResult bk buf s ords with
    | Except.error m => Except.error m
    | Except.ok (b, o) => runHead bk rest b o

/-- Modelled from the spec, section 4.3: execute a workflow stage by
stage.  The final stage streams — an operator call forwards each chunk
as its own delta, a parallel group emits its combined output as one
delta; an intermediate stage only feeds the next buffer.  After the last
stage a single done event is emitted; any failure emits a single error
event instead and nothing follows it. -/
def runStages (bk : Backend) :
    List Stage → List Char → List (List Nat) → List OutEvent
  | [], _, _ => [OutEvent.done]
  | s :: rest, buf, ords =>
    match rest with
    | [] =>
      match s with
      | Stage.op c =>
        match callChunks bk buf c with
        | Except.error m => [OutEvent.error m]
        | Except.ok chunks => chunks.map OutEvent.delta ++ [OutEvent.done]
      | Stage.par cs =>
        match parExec bk buf cs (ords.headD (declOrder cs)) with
        | Except.error m => [OutEvent.error m]
        | Except.ok out => [OutEvent.delta out, OutEvent.done]
    | r :: rs =>
      match interResult bk buf s ords with
      | Except.error m => [OutEvent.error m]
      | Except.ok (b, o) => runStages bk (r :: rs) b o

/-- The texts of the delta events of an event list. -/
def deltaTexts (evs : List OutEvent) : List (List Char) :=
  evs.filterMap fun e =>
    match e with
    | OutEvent.delta t => some t
    | _ => none

/-- Is the event an error event? -/
def isErrEv : OutEvent → Bool
  | OutEvent.error _ => true
  | _ => false

/-- Is the event the done event? -/
def isDoneEv : OutEvent → Bool
  | OutEvent.done => true
  | _ => false

/-- Modelled from the spec: the deltas the final stage itself produces
when it is reached with buffer `buf` and schedule `ords`. -/
def finalDeltas (bk : Backend) (buf : List Char) (ords : List (List Nat)) :
    Stage → List (List Char)
  | Stage.op c =>
    match callChunks bk buf c with
    | Except.ok chunks => chunks
    | Except.error _ => []
  | Stage.par cs =>
    match parExec bk buf cs (ords.headD (declOrder cs)) with
    | Except.ok out => [out]
    | Except.error _ => []

end Zodel

namespace Zodel

/-- Claim C1, as stated, is false: the SSE client type also admits the
message shape whose type field is "start" (and one whose type field is
"model_info"), so not every admitted message has its type field among
"delta", "error", "done". -/
theorem claim_C1_counterexample :
    ¬ (typeField SseMessage.start = deltaTag ∨
       typeField SseMessage.start = errorTag ∨
       typeField SseMessage.start = doneTag) := by
  decide

/-- Claim C1, amended: every message value the SSE client type admits
has its type field among the five tags "start", "delta", "done",
"error", "model_info", and carries exactly the fields of that shape;
the three shapes named by the outward-event contract are among these
five, but the type admits two more. -/
theorem claim_C1_amended :
    ∀ m : SseMessage,
      (m = SseMessage.start ∧ typeField m = startTag) ∨
      (∃ t, m = SseMessage.delta t ∧ typeField m = deltaTag) ∨
      (m = SseMessage.done ∧ typeField m = doneTag) ∨
      (∃ s, m = SseMessage.error s ∧ typeField m = errorTag) ∨
      (∃ s, m = SseMessage.modelInfo s ∧ typeField m = modelInfoTag) := by
  intro m
  cases m with
  | start => exact Or.inl ⟨rfl, rfl⟩
  | delta t => exact Or.inr (Or.inl ⟨t, rfl, rfl⟩)
  | done => exact Or.inr (Or.inr (Or.inl ⟨rfl, rfl⟩))
  | error s => exact Or.inr (Or.inr (Or.inr (Or.inl ⟨s, rfl, rfl⟩)))
  | modelInfo s => exact Or.inr (Or.inr (Or.inr (Or.inr ⟨s, rfl, rfl⟩)))

/-- Claim C8: an error event arriving after any message sequence leaves
the already accumulated output unchanged — the flows page appends the
formatted error message to it, so the prior output is a prefix of the
displayed result. -/
theorem claim_C8 :
    ∀ (ms : List SseMessage) (m : List Char),
      flowsRun (ms ++ [SseMessage.error m]) = flowsRun ms ++ errText m ∧
      ∃ t, flowsRun ms ++ t = flowsRun (ms ++ [SseMessage.error m]) := by
  intro ms m
  have h : flowsRun (ms ++ [SseMessage.error m]) = flowsRun ms ++ errText m := by
    simp [flowsRun, List.foldl_append, flowsStep]
  exact ⟨h, errText m, h.symm⟩

/-- Claim C6: variable-kind inference is a total pure function of the
name — exactly one uppercase letter infers Model, a leading `p` infers
Prompt, a leading `i` infers Input, and every other name shape is the
UnknownVariableKind parse error. -/
theorem claim_C6 :
    ∀ name : List Char,
      ((∃ c, name = [c] ∧ c.isUpper = true) →
        inferKind name = Except.ok VarKind.model) ∧
      (name.head? = some 'p' → inferKind name = Except.ok VarKind.prompt) ∧
      (name.head? = some 'i' → inferKind name = Except.ok VarKind.input) ∧
      ((¬ ∃ c, name = [c] ∧ c.isUpper = true) → name.head? ≠ some 'p' →
        name.head? ≠ some 'i' →
        inferKind name = Except.error ParseErr.unknownVariableKind) := by
  intro name
  refine ⟨?_, ?_, ?_, ?_⟩
  · rintro ⟨c, rfl, hu⟩
    simp [inferKind, hu]
  · intro h
    cases name with
    | nil => simp at h
    | cons c rest =>
      have hc : c = 'p' := by simpa using h
      subst hc
      cases rest with
      | nil => rfl
      | cons d ds => simp [inferKind]
  · intro h
    cases name with
    | nil => simp at h
    | cons c rest =>
      have hc : c = 'i' := by simpa using h
      subst hc
      cases rest with
      | nil => rfl
      | cons d ds => simp [inferKind]
  · intro h1 h2 h3
    cases name with
    | nil => rfl
    | cons c rest =>
      have hp : c ≠ 'p' := by
        intro hc; exact h2 (by simp [hc])
      have hi : c ≠ 'i' := by
        intro hc; exact h3 (by simp [hc])
      cases rest with
      | nil =>
        have hu : c.isUpper = false := by
          cases hcu : c.isUpper with
          | true => exact absurd ⟨c, rfl, hcu⟩ h1
          | false => rfl
        simp [inferKind, hu, hp, hi]
      | cons d ds => simp [inferKind, hp, hi]

/-- Claim C6 witness: the spec's four sample names, inferred through the
theorem. -/
theorem claim_C6_witness :
    inferKind ['A'] = Except.ok VarKind.model ∧
    inferKind ['p', '1'] = Except.ok VarKind.prompt ∧
    inferKind ['i', '2'] = Except.ok VarKind.input ∧
    inferKind ['x', 'x'] = Except.error ParseErr.unknownVariableKind :=
  ⟨(claim_C6 ['A']).1 ⟨'A', rfl, by decide⟩,
   (claim_C6 ['p', '1']).2.1 (by decide),
   (claim_C6 ['i', '2']).2.2.1 (by decide),
   (claim_C6 ['x', 'x']).2.2.2
     (by rintro ⟨c, h, _⟩; simp at h)
     (by decide) (by decide)⟩

/-! Structure of `splitB`: its equations, the reconstruction of the
input, the absence of separators in the rest, and how it composes when
more text is appended — the facts behind claims C3 and C10. -/

theorem splitB_cons_sep (rest : List Char) :
    splitB ('\n' :: '\n' :: rest) = ([] :: (splitB rest).1, (splitB rest).2) := by
  simp [splitB]

theorem splitB_cons_ns_nil {a b : Char} {rest : List Char}
    (h : ¬(a = '\n' ∧ b = '\n')) (h2 : (splitB (b :: rest)).1 = []) :
    splitB (a :: b :: rest) = ([], a :: (splitB (b :: rest)).2) := by
  simp [splitB, h, h2]

theorem splitB_cons_ns_cons {a b : Char} {rest h0 : List Char}
    {t : List (List Char)} (h : ¬(a = '\n' ∧ b = '\n'))
    (h2 : (splitB (b :: rest)).1 = h0 :: t) :
    splitB (a :: b :: rest) = ((a :: h0) :: t, (splitB (b :: rest)).2) := by
  simp [splitB, h, h2]

theorem seqJoin_cons (x : List Char) (L : List (List Char)) (hL : L ≠ []) :
    seqJoin (x :: L) = x ++ '\n' :: '\n' :: seqJoin L := by
  cases L with
  | nil => exact absurd rfl hL
  | cons y ys => rfl

theorem seqJoin_append_single (l : List (List Char)) (r : List Char) :
    seqJoin (l ++ [r]) =
      if l = [] then r else seqJoin l ++ '\n' :: '\n' :: r := by
  induction l with
  | nil => rfl
  | cons x xs ih =>
    cases xs with
    | nil => rfl
    | cons y ys =>
      have h1 : seqJoin ((x :: y :: ys) ++ [r]) =
          x ++ '\n' :: '\n' :: seqJoin ((y :: ys) ++ [r]) := rfl
      rw [h1, ih]
      simp [seqJoin, List.append_assoc]

/-- Joining the complete blocks and the rest with the blank-line
separator reconstructs the split input exactly. -/
theorem splitB_recon : ∀ l : List Char,
    seqJoin ((splitB l).1 ++ [(splitB l).2]) = l := by
  intro l
  induction l using splitB.induct with
  | case1 => rfl
  | case2 c => rfl
  | case3 a b rest hab ih =>
    obtain ⟨ha, hb⟩ := hab
    subst ha; subst hb
    rw [splitB_cons_sep]
    have hne : ((splitB rest).1 ++ [(splitB rest).2]) ≠ [] := by simp
    calc seqJoin (([] :: (splitB rest).1, (splitB rest).2).1 ++
            [([] :: (splitB rest).1, (splitB rest).2).2])
        = seqJoin ([] :: ((splitB rest).1 ++ [(splitB rest).2])) := rfl
      _ = [] ++ '\n' :: '\n' :: seqJoin ((splitB rest).1 ++ [(splitB rest).2]) :=
          seqJoin_cons _ _ hne
      _ = '\n' :: '\n' :: rest := by rw [ih]; rfl
  | case4 a b rest hns p h2 ih =>
    rw [splitB_cons_ns_nil hns h2]
    rw [h2] at ih
    have hr : (splitB (b :: rest)).2 = b :: rest := by simpa using ih
    simp [seqJoin, hr]
  | case5 a b rest hns p h0 t h2 ih =>
    rw [splitB_cons_ns_cons hns h2]
    rw [h2] at ih
    have hne : (t ++ [(splitB (b :: rest)).2]) ≠ [] := by simp
    have ih2 : h0 ++ '\n' :: '\n' :: seqJoin (t ++ [(splitB (b :: rest)).2]) =
        b :: rest := by
      rw [← seqJoin_cons _ _ hne]
      simpa using ih
    calc seqJoin (((a :: h0) :: t, (splitB (b :: rest)).2).1 ++
            [((a :: h0) :: t, (splitB (b :: rest)).2).2])
        = seqJoin ((a :: h0) :: (t ++ [(splitB (b :: rest)).2])) := by
          simp
      _ = (a :: h0) ++ '\n' :: '\n' :: seqJoin (t ++ [(splitB (b :: rest)).2]) :=
          seqJoin_cons _ _ hne
      _ = a :: b :: rest := by rw [List.cons_append, ih2]

/-- When the split found no complete block, the rest is the whole
input. -/
theorem splitB_rest_of_nil {l : List Char} (h : (splitB l).1 = []) :
    (splitB l).2 = l := by
  have hr := splitB_recon l
  rw [h] at hr
  simpa using hr

theorem hasSep_cons_true (c : Char) {M : List Char} (h : hasSep M = true) :
    hasSep (c :: M) = true := by
  cases M with
  | nil => simp [hasSep] at h
  | cons m0 ms => simp [hasSep, h]

/-- A list containing the blank-line separator as an infix has
`hasSep`. -/
theorem sep_occurs_hasSep {l : List Char} (h : ['\n', '\n'] <:+: l) :
    hasSep l = true := by
  obtain ⟨s, t, rfl⟩ := h
  induction s with
  | nil => simp [hasSep]
  | cons c s ih => exact hasSep_cons_true c ih

/-- The rest returned by the split never contains the separator. -/
theorem hasSep_splitB_rest : ∀ l : List Char, hasSep (splitB l).2 = false := by
  intro l
  induction l using splitB.induct with
  | case1 => rfl
  | case2 c => rfl
  | case3 a b rest hab ih =>
    obtain ⟨ha, hb⟩ := hab
    subst ha; subst hb
    rw [splitB_cons_sep]
    exact ih
  | case4 a b rest hns p h2 ih =>
    rw [splitB_cons_ns_nil hns h2]
    have hr : (splitB (b :: rest)).2 = b :: rest := splitB_rest_of_nil h2
    rw [hr] at ih
    show hasSep (a :: (splitB (b :: rest)).2) = false
    rw [hr]
    show ((a = '\n' && b = '\n') || hasSep (b :: rest)) = false
    rw [ih]
    simp only [Bool.or_false, Bool.and_eq_false_iff]
    by_cases ha : a = '\n'
    · right
      simp only [decide_eq_false_iff_not]
      exact fun hb => hns ⟨ha, hb⟩
    · left
      simp only [decide_eq_false_iff_not]
      exact ha
  | case5 a b rest hns p h0 t h2 ih =>
    rw [splitB_cons_ns_cons hns h2]
    exact ih

/-- A separator-free buffer splits to no complete block and itself as
rest. -/
theorem splitB_of_noSep : ∀ l : List Char, hasSep l = false → splitB l = ([], l) := by
  intro l
  induction l using splitB.induct with
  | case1 => intro _; rfl
  | case2 c => intro _; rfl
  | case3 a b rest hab ih =>
    obtain ⟨ha, hb⟩ := hab
    subst ha; subst hb
    intro hfalse
    simp [hasSep] at hfalse
  | case4 a b rest hns p h2 ih =>
    intro hs
    rw [splitB_cons_ns_nil hns h2, splitB_rest_of_nil h2]
  | case5 a b rest hns p h0 t h2 ih =>
    intro hs
    have hs2 : hasSep (b :: rest) = false := by
      have : ((a = '\n' && b = '\n') || hasSep (b :: rest)) = false := hs
      simp only [Bool.or_eq_false_iff] at this
      exact this.2
    have h2x : (splitB (b :: rest)).1 = h0 :: t := h2
    rw [ih hs2] at h2x
    simp at h2x

/-- How the split composes when more text arrives: splitting the
extended buffer yields the blocks already found, then the blocks of the
carried-over rest joined with the new text. -/
theorem splitB_append : ∀ s u : List Char,
    splitB (s ++ u) =
      ((splitB s).1 ++ (splitB ((splitB s).2 ++ u)).1,
       (splitB ((splitB s).2 ++ u)).2) := by
  intro s u
  induction s using splitB.induct with
  | case1 => simp [splitB]
  | case2 c => simp [splitB]
  | case3 a b rest hab ih =>
    obtain ⟨ha, hb⟩ := hab
    subst ha; subst hb
    show splitB ('\n' :: '\n' :: (rest ++ u)) = _
    rw [splitB_cons_sep, ih, splitB_cons_sep]
    simp
  | case4 a b rest hns p h2 ih =>
    rw [splitB_cons_ns_nil hns h2, splitB_rest_of_nil h2]
    simp
  | case5 a b rest hns p h0 t h2 ih =>
    rw [splitB_cons_ns_cons hns h2]
    show splitB (a :: b :: (rest ++ u)) = _
    have hup : (splitB (b :: (rest ++ u))).1 =
        h0 :: (t ++ (splitB ((splitB (b :: rest)).2 ++ u)).1) := by
      show (splitB ((b :: rest) ++ u)).1 = _
      rw [ih, h2]
      simp
    rw [splitB_cons_ns_cons hns hup]
    have hdn : (splitB (b :: (rest ++ u))).2 =
        (splitB ((splitB (b :: rest)).2 ++ u)).2 := by
      show (splitB ((b :: rest) ++ u)).2 = _
      rw [ih]
    rw [hdn]
    simp

theorem reconstructSse_eq_seqJoin (events : List (List Char)) (rest : List Char) :
    reconstructSse events rest = seqJoin (events ++ [rest]) := by
  rw [seqJoin_append_single, reconstructSse]

/-- Claim C10: `parseSseLines` loses no input — joining the returned
events with the blank-line separator and appending the separator and the
rest (or the rest alone when there are no events) reconstructs the
buffer exactly, and the rest never contains the separator. -/
theorem claim_C10 :
    ∀ buffer : List Char,
      reconstructSse (parseSseLines buffer).1 (parseSseLines buffer).2 = buffer ∧
      hasSep (parseSseLines buffer).2 = false ∧
      ¬ (['\n', '\n'] <:+: (parseSseLines buffer).2) := by
  intro buffer
  refine ⟨?_, hasSep_splitB_rest buffer, ?_⟩
  · rw [reconstructSse_eq_seqJoin]
    exact splitB_recon buffer
  · intro hinf
    have ht := sep_occurs_hasSep hinf
    have hf : hasSep (parseSseLines buffer).2 = false := hasSep_splitB_rest buffer
    rw [ht] at hf
    simp at hf

/-- Feeding a nonempty chunk list through the reader loop emits exactly
the complete blocks of the concatenated text. -/
theorem runChunks_join : ∀ (cs : List (List Char)) (buf : List Char), cs ≠ [] →
    runChunks buf cs = (splitB (buf ++ joinAll cs)).1 := by
  intro cs
  induction cs with
  | nil => intro buf h; exact absurd rfl h
  | cons c cs ih =>
    intro buf _
    cases cs with
    | nil =>
      show (splitB (buf ++ c)).1 ++ runChunks (splitB (buf ++ c)).2 [] = _
      simp [runChunks, joinAll]
    | cons d ds =>
      show (splitB (buf ++ c)).1 ++ runChunks (splitB (buf ++ c)).2 (d :: ds) = _
      rw [ih _ (by simp)]
      show _ = (splitB (buf ++ (c ++ joinAll (d :: ds)))).1
      rw [← List.append_assoc, splitB_append (buf ++ c) (joinAll (d :: ds))]

/-- Claim C3: parsing is chunk-boundary independent — any way of
splitting the stream text into reader chunks yields the very message
sequence obtained from the whole text handed over at once. -/
theorem claim_C3 :
    ∀ (decode : List Char → Option SseMessage) (chunks : List (List Char)),
      fetchSseMessages decode chunks = fetchSseMessages decode [joinAll chunks] := by
  intro decode chunks
  unfold fetchSseMessages
  congr 1
  cases chunks with
  | nil => simp [runChunks, joinAll, splitB]
  | cons c cs =>
    rw [runChunks_join (c :: cs) [] (by simp),
      runChunks_join [joinAll (c :: cs)] [] (by simp)]
    simp [joinAll]

/-- A line that passes the data-prefix test cannot pass the
event-prefix test. -/
theorem data_not_event {l : List Char} (h : strStarts dataPre l = true) :
    strStarts eventPre l = false := by
  cases l with
  | nil => simp [strStarts, dataPre] at h
  | cons c cs =>
    simp only [dataPre, strStarts, Bool.and_eq_true, decide_eq_true_eq] at h
    obtain ⟨hc, -⟩ := h
    subst hc
    rfl

/-- The data component the loop accumulates is the initial data followed
by the payloads of the data lines, in order — the event lines (and all
other lines) leave it untouched. -/
theorem sseFold_data : ∀ (lines : List (List Char)) (e d : List Char),
    (lines.foldl sseFold (e, d)).2 = d ++ dataConcat lines := by
  intro lines
  induction lines with
  | nil => intro e d; simp [dataConcat, joinAll]
  | cons raw ls ih =>
    intro e d
    show ((ls.foldl sseFold (sseFold (e, d) raw))).2 = _
    by_cases h1 : trimEnd raw = []
    · have hd : isDataLine raw = false := by
        simp [isDataLine, h1, dataPre, strStarts]
      rw [show sseFold (e, d) raw = (e, d) by simp [sseFold, h1]]
      rw [ih e d]
      simp [dataConcat, List.filter_cons, hd]
    · by_cases h2 : strStarts eventPre (trimEnd raw) = true
      · have hd : isDataLine raw = false := by
          cases hq : isDataLine raw with
          | false => rfl
          | true =>
            have hne := data_not_event (l := trimEnd raw)
              (by simpa [isDataLine] using hq)
            rw [hne] at h2
            exact absurd h2 (by simp)
        have hstep : sseFold (e, d) raw = (trimBoth ((trimEnd raw).drop 6), d) := by
          simp [sseFold, h1, h2]
        rw [hstep, ih _ d]
        simp [dataConcat, List.filter_cons, hd]
      · by_cases h3 : strStarts dataPre (trimEnd raw) = true
        · have hd : isDataLine raw = true := by simpa [isDataLine] using h3
          have hstep : sseFold (e, d) raw = (e, d ++ linePayload raw) := by
            simp [sseFold, h1, h2, h3, linePayload]
          rw [hstep, ih e _]
          have hdc : dataConcat (raw :: ls) = linePayload raw ++ dataConcat ls := by
            simp [dataConcat, List.filter_cons, hd, joinAll]
          rw [hdc, List.append_assoc]
        · have hd : isDataLine raw = false := by simpa [isDataLine] using h3
          have hstep : sseFold (e, d) raw = (e, d) := by
            simp [sseFold, h1, h2, h3]
          rw [hstep, ih e d]
          simp [dataConcat, List.filter_cons, hd]

/-- A block's processing depends only on the accumulated data of its
lines: empty data means the block is dropped, otherwise the decoder runs
on the data alone. -/
theorem processBlock_eq (decode : List Char → Option SseMessage) (block : List Char) :
    processBlock decode block =
      if dataConcat (splitLines block) = [] then none
      else decode (dataConcat (splitLines block)) := by
  have h2 : ((splitLines block).foldl sseFold
      (['m', 'e', 's', 's', 'a', 'g', 'e'], [])).2 = dataConcat (splitLines block) := by
    simpa using sseFold_data (splitLines block) ['m', 'e', 's', 's', 'a', 'g', 'e'] []
  by_cases h : dataConcat (splitLines block) = []
  · have hc : ((splitLines block).foldl sseFold
        (['m', 'e', 's', 's', 'a', 'g', 'e'], [])).2 = [] := h2.trans h
    simp [processBlock, parseEventBlock, hc, h]
  · have hc : ¬ ((splitLines block).foldl sseFold
        (['m', 'e', 's', 's', 'a', 'g', 'e'], [])).2 = [] := by
      rw [h2]; exact h
    simp [processBlock, parseEventBlock, hc, h, h2]

/-- Dropping the event-header lines first does not change which lines
are data lines. -/
theorem filter_data_nonEvent (lines : List (List Char)) :
    lines.filter isDataLine = (lines.filter nonEventLine).filter isDataLine := by
  rw [List.filter_filter]
  apply List.filter_congr
  intro a _
  cases hq : isDataLine a with
  | false => simp [hq]
  | true =>
    have he := data_not_event (l := trimEnd a) (by simpa [isDataLine] using hq)
    simp [hq, nonEventLine, he]

/-- Blocks that differ only in their event-header lines are processed
identically. -/
theorem processBlock_congr (decode : List Char → Option SseMessage)
    {b1 b2 : List Char} (h : sameButEvents b1 b2) :
    processBlock decode b1 = processBlock decode b2 := by
  unfold sameButEvents at h
  have hd : dataConcat (splitLines b1) = dataConcat (splitLines b2) := by
    unfold dataConcat
    rw [filter_data_nonEvent (splitLines b1), filter_data_nonEvent (splitLines b2), h]
  rw [processBlock_eq, processBlock_eq, hd]

theorem filterMap_processBlock_congr (decode : List Char → Option SseMessage)
    {l1 l2 : List (List Char)} (h : List.Forall₂ sameButEvents l1 l2) :
    l1.filterMap (processBlock decode) = l2.filterMap (processBlock decode) := by
  induction h with
  | nil => rfl
  | cons hd tl ih => simp [List.filterMap_cons, processBlock_congr decode hd, ih]

/-- Claim C2: the type field inside the JSON payload is authoritative —
the messages `fetchSse` yields (and hence what the flows page does with
them) are a function of the data payloads alone; streams whose blocks
differ only in their `event:` header lines yield identical message
sequences. -/
theorem claim_C2 :
    ∀ (decode : List Char → Option SseMessage)
      (chunks1 chunks2 : List (List Char)),
      List.Forall₂ sameButEvents (runChunks [] chunks1) (runChunks [] chunks2) →
      fetchSseMessages decode chunks1 = fetchSseMessages decode chunks2 ∧
      flowsRun (fetchSseMessages decode chunks1) =
        flowsRun (fetchSseMessages decode chunks2) := by
  intro decode c1 c2 h
  have he : fetchSseMessages decode c1 = fetchSseMessages decode c2 :=
    filterMap_processBlock_congr decode h
  exact ⟨he, by rw [he]⟩

/-- Claim C2 witness: two single-chunk streams whose only difference is
the event header name (foo against bar) yield the same messages. -/
theorem claim_C2_witness :
    fetchSseMessages (fun _ => some SseMessage.done)
        [['e', 'v', 'e', 'n', 't', ':', ' ', 'f', 'o', 'o', '\n',
          'd', 'a', 't', 'a', ':', ' ', 'x', '\n', '\n']] =
      fetchSseMessages (fun _ => some SseMessage.done)
        [['e', 'v', 'e', 'n', 't', ':', ' ', 'b', 'a', 'r', '\n',
          'd', 'a', 't', 'a', ':', ' ', 'x', '\n', '\n']] ∧
    flowsRun (fetchSseMessages (fun _ => some SseMessage.done)
        [['e', 'v', 'e', 'n', 't', ':', ' ', 'f', 'o', 'o', '\n',
          'd', 'a', 't', 'a', ':', ' ', 'x', '\n', '\n']]) =
      flowsRun (fetchSseMessages (fun _ => some SseMessage.done)
        [['e', 'v', 'e', 'n', 't', ':', ' ', 'b', 'a', 'r', '\n',
          'd', 'a', 't', 'a', ':', ' ', 'x', '\n', '\n']]) :=
  claim_C2 (fun _ => some SseMessage.done) _ _
    (by
      show List.Forall₂ sameButEvents
        [['e', 'v', 'e', 'n', 't', ':', ' ', 'f', 'o', 'o', '\n',
          'd', 'a', 't', 'a', ':', ' ', 'x']]
        [['e', 'v', 'e', 'n', 't', ':', ' ', 'b', 'a', 'r', '\n',
          'd', 'a', 't', 'a', ':', ' ', 'x']]
      exact List.Forall₂.cons (by unfold sameButEvents; decide) List.Forall₂.nil)

/-- Claim C9: `fetchSse` is total over malformed blocks — a block whose
lines contain no data line parses to nothing; a dropped parse yields no
message; a data payload the JSON decoder rejects yields no message; and
a block yielding no message is silently skipped from the message
sequence. -/
theorem claim_C9 :
    (∀ block : List Char,
        (∀ l ∈ splitLines block, isDataLine l = false) →
        parseEventBlock block = none) ∧
    (∀ (decode : List Char → Option SseMessage) (block : List Char),
        parseEventBlock block = none → processBlock decode block = none) ∧
    (∀ (decode : List Char → Option SseMessage) (block : List Char)
        (p : List Char × List Char),
        parseEventBlock block = some p → decode p.2 = none →
        processBlock decode block = none) ∧
    (∀ (decode : List Char → Option SseMessage) (bs1 : List (List Char))
        (block : List Char) (bs2 : List (List Char)),
        processBlock decode block = none →
        (bs1 ++ block :: bs2).filterMap (processBlock decode) =
          (bs1 ++ bs2).filterMap (processBlock decode)) := by
  refine ⟨?_, ?_, ?_, ?_⟩
  · intro block hnone
    have hf : (splitLines block).filter isDataLine = [] := by
      rw [List.filter_eq_nil_iff]
      intro a ha
      simp [hnone a ha]
    have hdc : dataConcat (splitLines block) = [] := by
      simp [dataConcat, hf, joinAll]
    have h2 : ((splitLines block).foldl sseFold
        (['m', 'e', 's', 's', 'a', 'g', 'e'], [])).2 = [] := by
      rw [sseFold_data (splitLines block) _ []]
      simpa using hdc
    simp [parseEventBlock, h2]
  · intro decode block h
    simp [processBlock, h]
  · intro decode block p hp hd
    simp [processBlock, hp, hd]
  · intro decode bs1 block bs2 h
    simp [List.filterMap_append, List.filterMap_cons, h]

/-- Claim C9 witness: a block with no data line parses to nothing; a
decoder that rejects everything yields no message even for a well-formed
block; a message-less block drops out of the sequence. -/
theorem claim_C9_witness :
    parseEventBlock ['e'] = none ∧
    processBlock (fun _ => none) ['d', 'a', 't', 'a', ':', 'x'] = none ∧
    [['e']].filterMap (processBlock (fun _ => none)) =
      ([] : List (List Char)).filterMap (processBlock (fun _ => none)) :=
  ⟨claim_C9.1 ['e'] (by decide),
   claim_C9.2.2.1 (fun _ => none) ['d', 'a', 't', 'a', ':', 'x']
     (['m', 'e', 's', 's', 'a', 'g', 'e'], ['x']) (by decide) rfl,
   claim_C9.2.2.2 (fun _ => none) [] ['e'] [] (by decide)⟩

/-- The branch results of an all-successful parallel stage are the
declared-order outputs, each wrapped in success. -/
theorem map_branchOut_ok {bk : Backend} {buf : List Char} {cs : List Call}
    {outs : List (List Char)}
    (h : List.Forall₂ (fun c out => branchOut bk buf c = Except.ok out) cs outs) :
    cs.map (branchOut bk buf) = outs.map Except.ok := by
  induction h with
  | nil => rfl
  | cons h1 _ ih => simp [h1, ih]

theorem getD_map_ok (l : List (List Char)) (i : Nat) :
    (l.map (Except.ok : List Char → Except (List Char) (List Char))).getD i
        (Except.ok []) =
      Except.ok (l.getD i []) := by
  induction l generalizing i with
  | nil => cases i <;> rfl
  | cons x xs ih =>
    cases i with
    | zero => rfl
    | succ j => simp [ih j]

theorem firstCompletedErr_map_ok (outs : List (List Char)) (order : List Nat) :
    firstCompletedErr (outs.map Except.ok) order = none := by
  induction order with
  | nil => rfl
  | cons i is ih =>
    simp only [firstCompletedErr, List.findSome?] at ih ⊢
    rw [getD_map_ok]
    exact ih

theorem collectOk_map_ok (outs : List (List Char)) :
    collectOk (outs.map Except.ok) = Except.ok outs := by
  induction outs with
  | nil => rfl
  | cons x xs ih => simp [collectOk, ih, Except.map]

/-- Claim C4: when every branch of a Parallel stage succeeds, the stage
resolves to the branch outputs joined with the newline delimiter in the
branches' declared left-to-right order, whatever the completion order
is — in particular when a later-declared branch completes first. -/
theorem claim_C4 :
    ∀ (bk : Backend) (buf : List Char) (cs : List Call)
      (outs : List (List Char)) (order : List Nat),
      List.Forall₂ (fun c out => branchOut bk buf c = Except.ok out) cs outs →
      parExec bk buf cs order = Except.ok (joinOutputs outs) := by
  intro bk buf cs outs order h
  simp [parExec, map_branchOut_ok h, firstCompletedErr_map_ok,
    collectOk_map_ok, Except.map]

/-- Claim C4 witness: two branches, the second completing first
(completion order lists branch 1 before branch 0), still merge as
first-declared output, newline, second-declared output. -/
theorem claim_C4_witness :
    parExec
      (fun model _ _ _ =>
        if model = ['A'] then Except.ok [['a']]
        else if model = ['B'] then Except.ok [['b']]
        else Except.error ['n', 'o'])
      [] [⟨['A'], none, none⟩, ⟨['B'], none, none⟩] [1, 0] =
      Except.ok ['a', '\n', 'b'] :=
  claim_C4 _ [] _ [['a'], ['b']] [1, 0]
    (List.Forall₂.cons rfl (List.Forall₂.cons rfl List.Forall₂.nil))

theorem deltaTexts_map_delta (chunks : List (List Char)) :
    deltaTexts (chunks.map OutEvent.delta ++ [OutEvent.done]) = chunks := by
  induction chunks with
  | nil => rfl
  | cons t ts ih =>
    show t :: deltaTexts (ts.map OutEvent.delta ++ [OutEvent.done]) = t :: ts
    rw [ih]

theorem runStages_cons_cons (bk : Backend) (s r : Stage) (rs : List Stage)
    (buf : List Char) (ords : List (List Nat)) :
    runStages bk (s :: r :: rs) buf ords =
      match interResult bk buf s ords with
      | Except.error m => [OutEvent.error m]
      | Except.ok (b, o) => runStages bk (r :: rs) b o := rfl

theorem runStages_single_op (bk : Backend) (c : Call) (buf : List Char)
    (ords : List (List Nat)) :
    runStages bk [Stage.op c] buf ords =
      match callChunks bk buf c with
      | Except.error m => [OutEvent.error m]
      | Except.ok chunks => chunks.map OutEvent.delta ++ [OutEvent.done] := rfl

theorem runStages_single_par (bk : Backend) (cs : List Call) (buf : List Char)
    (ords : List (List Nat)) :
    runStages bk [Stage.par cs] buf ords =
      match parExec bk buf cs (ords.headD (declOrder cs)) with
      | Except.error m => [OutEvent.error m]
      | Except.ok out => [OutEvent.delta out, OutEvent.done] := rfl

/-- A run through leading stages followed by more stages: the leading
stages are intermediate, so the whole run is the head run followed by
the run of the remainder (or a lone error event). -/
theorem runStages_append (bk : Backend) :
    ∀ (pre : List Stage) (s : Stage) (rest : List Stage) (buf : List Char)
      (ords : List (List Nat)),
      runStages bk (pre ++ s :: rest) buf ords =
        match runHead bk pre buf ords with
        | Except.error m => [OutEvent.error m]
        | Except.ok (b, o) => runStages bk (s :: rest) b o := by
  intro pre
  induction pre with
  | nil => intro s rest buf ords; rfl
  | cons p ps ih =>
    intro s rest buf ords
    obtain ⟨x, xs, hx⟩ : ∃ x xs, ps ++ s :: rest = x :: xs := by
      cases ps <;> exact ⟨_, _, rfl⟩
    show runStages bk (p :: (ps ++ s :: rest)) buf ords = _
    rw [hx, runStages_cons_cons]
    cases hint : interResult bk buf p ords with
    | error m =>
      show _ = (match runHead bk (p :: ps) buf ords with
        | Except.error m => [OutEvent.error m]
        | Except.ok (b, o) => runStages bk (s :: rest) b o)
      have hh : runHead bk (p :: ps) buf ords = Except.error m := by
        show (match interResult bk buf p ords with
          | Except.error m => Except.error m
          | Except.ok (b, o) => runHead bk ps b o) = _
        rw [hint]
      rw [hh]
    | ok bo =>
      obtain ⟨b, o⟩ := bo
      have hh : runHead bk (p :: ps) buf ords = runHead bk ps b o := by
        show (match interResult bk buf p ords with
          | Except.error m => Except.error m
          | Except.ok (b, o) => runHead bk ps b o) = _
        rw [hint]
      rw [hh, ← hx]
      exact ih s rest b o

/-- When one of the gathered results is an error, gathering fails. -/
theorem collectOk_err :
    ∀ results : List (Except (List Char) (List Char)),
      (∃ r ∈ results, ∃ m, r = Except.error m) →
      ∃ m, collectOk results = Except.error m := by
  intro results
  induction results with
  | nil =>
    rintro ⟨r, hr, -⟩
    simp at hr
  | cons x xs ih =>
    rintro ⟨r, hr, m, hm⟩
    cases x with
    | error m0 => exact ⟨m0, rfl⟩
    | ok a =>
      rcases List.mem_cons.mp hr with h1 | h2
      · rw [h1] at hm
        simp at hm
      · obtain ⟨m1, hm1⟩ := ih ⟨r, h2, m, hm⟩
        exact ⟨m1, by simp [collectOk, hm1, Except.map]⟩

/-- A failing branch fails the whole parallel stage, whatever the
completion order and whatever the other branches do. -/
theorem parExec_err {bk : Backend} {buf : List Char} {cs : List Call}
    (order : List Nat)
    (h : ∃ c ∈ cs, ∃ m, branchOut bk buf c = Except.error m) :
    ∃ m, parExec bk buf cs order = Except.error m := by
  obtain ⟨c, hc, m, hm⟩ := h
  have hres : ∃ r ∈ cs.map (branchOut bk buf), ∃ m0, r = Except.error m0 :=
    ⟨branchOut bk buf c, List.mem_map_of_mem _ hc, m, hm⟩
  cases hfc : firstCompletedErr (cs.map (branchOut bk buf)) order with
  | some m0 => exact ⟨m0, by simp [parExec, hfc]⟩
  | none =>
    obtain ⟨m1, hm1⟩ := collectOk_err _ hres
    exact ⟨m1, by simp [parExec, hfc, hm1, Except.map]⟩

/-- Claim C5: when a run reaches a Parallel stage one of whose branches
fails, the run's event stream is a single error event — exactly one
error and no done, regardless of the other branches and of where the
stage sits in the workflow. -/
theorem claim_C5 :
    ∀ (bk : Backend) (pre : List Stage) (cs : List Call) (post : List Stage)
      (buf : List Char) (ords : List (List Nat)) (b : List Char)
      (o : List (List Nat)),
      runHead bk pre buf ords = Except.ok (b, o) →
      (∃ c ∈ cs, ∃ m0, branchOut bk b c = Except.error m0) →
      ∃ m,
        runStages bk (pre ++ Stage.par cs :: post) buf ords = [OutEvent.error m] ∧
        (runStages bk (pre ++ Stage.par cs :: post) buf ords).countP isErrEv = 1 ∧
        (runStages bk (pre ++ Stage.par cs :: post) buf ords).countP isDoneEv = 0 := by
  intro bk pre cs post buf ords b o hhead hfail
  obtain ⟨m, hm⟩ := parExec_err (o.headD (declOrder cs)) hfail
  have heq : runStages bk (pre ++ Stage.par cs :: post) buf ords =
      [OutEvent.error m] := by
    rw [runStages_append bk pre (Stage.par cs) post buf ords, hhead]
    show runStages bk (Stage.par cs :: post) b o = [OutEvent.error m]
    cases post with
    | nil => rw [runStages_single_par, hm]
    | cons q qs =>
      rw [runStages_cons_cons]
      have hint : interResult bk b (Stage.par cs) o = Except.error m := by
        show (parExec bk b cs (o.headD (declOrder cs))).map
          (fun out => (out, o.tail)) = Except.error m
        rw [hm]
        rfl
      rw [hint]
  refine ⟨m, heq, ?_, ?_⟩
  · rw [heq]; rfl
  · rw [heq]; rfl

/-- Claim C5 witness: a two-stage workflow whose final Parallel stage
has a failing branch emits exactly one error event and no done event. -/
theorem claim_C5_witness :
    ∃ m,
      runStages
          (fun model _ _ _ =>
            if model = ['A'] then Except.ok [['x']]
            else Except.error ['b', 'm'])
          ([Stage.op ⟨['A'], none, none⟩] ++
            Stage.par [⟨['B'], none, none⟩] :: []) [] [] = [OutEvent.error m] ∧
      (runStages
          (fun model _ _ _ =>
            if model = ['A'] then Except.ok [['x']]
            else Except.error ['b', 'm'])
          ([Stage.op ⟨['A'], none, none⟩] ++
            Stage.par [⟨['B'], none, none⟩] :: []) [] []).countP isErrEv = 1 ∧
      (runStages
          (fun model _ _ _ =>
            if model = ['A'] then Except.ok [['x']]
            else Except.error ['b', 'm'])
          ([Stage.op ⟨['A'], none, none⟩] ++
            Stage.par [⟨['B'], none, none⟩] :: []) [] []).countP isDoneEv = 0 :=
  claim_C5 _ [Stage.op ⟨['A'], none, none⟩] [⟨['B'], none, none⟩] [] [] []
    ['x'] [] rfl
    ⟨⟨['B'], none, none⟩, by simp, ['b', 'm'], rfl⟩

/-- Claim C7: every delta event of a run belongs to the final stage — a
run whose leading stages succeed emits exactly the final stage's deltas,
and a run failing earlier emits none at all. -/
theorem claim_C7 :
    ∀ (bk : Backend) (pre : List Stage) (last : Stage) (buf : List Char)
      (ords : List (List Nat)),
      deltaTexts (runStages bk (pre ++ [last]) buf ords) =
        match runHead bk pre buf ords with
        | Except.error _ => []
        | Except.ok (b, o) => finalDeltas bk b o last := by
  intro bk pre last buf ords
  rw [runStages_append bk pre last [] buf ords]
  cases hh : runHead bk pre buf ords with
  | error m => rfl
  | ok bo =>
    obtain ⟨b, o⟩ := bo
    show deltaTexts (runStages bk [last] b o) = finalDeltas bk b o last
    cases last with
    | op c =>
      rw [runStages_single_op]
      cases hc : callChunks bk b c with
      | error m => simp [deltaTexts, finalDeltas, hc]
      | ok chunks =>
        show deltaTexts (chunks.map OutEvent.delta ++ [OutEvent.done]) =
          match callChunks bk b c with
          | Except.ok chunks => chunks
          | Except.error _ => []
        rw [deltaTexts_map_delta, hc]
    | par cs =>
      rw [runStages_single_par]
      cases hp : parExec bk b cs (o.headD (declOrder cs)) with
      | error m =>
        show deltaTexts [OutEvent.error m] =
          match parExec bk b cs (o.headD (declOrder cs)) with
          | Except.ok out => [out]
          | Except.error _ => []
        rw [hp]
        rfl
      | ok out =>
        show deltaTexts [OutEvent.delta out, OutEvent.done] =
          match parExec bk b cs (o.headD (declOrder cs)) with
          | Except.ok out => [out]
          | Except.error _ => []
        rw [hp]
        rfl

end Zodel
